import Mathlib

/-!
# Fremkit — verification of the append-only broadcast log

Shallow embedding of the Fremkit core (bounded log, append-only segment
list, unbounded channel, notifier) and proofs of the specified properties.

The embedding follows the Rust sources:
* `src/log/bounded.rs`        — the standalone bounded `Log`;
* `src/channel/bounded.rs`    — the bounded `Log` variant used as channel segment
                                (same data layout, `get` checks capacity instead of length);
* `fremkit-channel/src/types/list.rs` — the append-only `List` with its lookup cache;
* `src/channel/unbounded.rs`  — the unbounded `Channel`;
* `fremkit-channel/src/types/notifier.rs` — the `Notifier` (modelled as a
                                finite interleaving state machine together with
                                one producer and one consumer thread).

`usize` is modelled as `Nat` with explicit wrap-around at `2 ^ 64` wherever the
source performs arithmetic that can overflow (`fetch_add`, `+= 1`, `*`, `+`).
Rust panics (division by zero, the `unreachable` branch of `Channel::push`)
are modelled explicitly with an `Except` result.
-/

namespace Fremkit

/-- Number of values of `usize` (64-bit target). -/
def USIZE : Nat := 2 ^ 64

/-- Wrapping `usize` addition (`fetch_add`, `+=` in release mode wrap). -/
def uadd (a b : Nat) : Nat := (a + b) % USIZE

/-- Wrapping `usize` multiplication. -/
def umul (a b : Nat) : Nat := (a * b) % USIZE

theorem usize_pos : 0 < USIZE := by decide

theorem uadd_one (a : Nat) : uadd a 1 = (a + 1) % USIZE := rfl

/-- `LogError` from `src/log/error.rs`: the only error is a full log,
carrying the rejected value back to the caller. -/
inductive LogError (T : Type) where
  | LogCapacityExceeded (v : T)
  deriving Repr, DecidableEq

/-- The bounded `Log<T>` of `src/log/bounded.rs`.

* `lenCtr` is the raw value of the atomic reservation counter `len`
  (which may exceed `capacity`);
* `data` is the fixed array of one-shot cells `Vec<UnsafeCell<Option<T>>>`. -/
structure Log (T : Type) where
  lenCtr : Nat
  capacity : Nat
  data : List (Option T)
  deriving Repr, DecidableEq

namespace Log

/-- `Log::new` (`src/log/bounded.rs:65`): capacity is clamped to at least 1,
and `capacity` cells are initialized to `None`. -/
def new (T : Type) (capacity : Nat) : Log T :=
  let capacity := max capacity 1
  { lenCtr := 0
    capacity := capacity
    data := List.replicate capacity none }

/-- `Log::len` (`src/log/bounded.rs:100`): the reservation counter clamped
to the capacity. -/
def len (l : Log T) : Nat :=
  min l.lenCtr l.capacity

/-- `Log::is_empty` (`src/log/bounded.rs:132`). -/
def isEmpty (l : Log T) : Bool :=
  l.len == 0

/-- `Log::get` (`src/log/bounded.rs:157`): `None` when `index >= self.len()`,
otherwise the content of the cell `data[index]`. -/
def get (l : Log T) (index : Nat) : Option T :=
  if index ≥ l.len then none
  else l.data.getD index none

/-- `Log::push` (`src/log/bounded.rs:195`): reserve a token with
`fetch_add(1)`; if the token is past the capacity fail with the value,
otherwise write the value into the reserved cell. -/
def push (l : Log T) (value : T) : Log T × Except (LogError T) Nat :=
  let token := l.lenCtr
  let l1 : Log T := { l with lenCtr := uadd l.lenCtr 1 }
  if token ≥ l1.capacity then
    (l1, .error (.LogCapacityExceeded value))
  else
    ({ l1 with data := l1.data.set token (some value) }, .ok token)

/-- `Log::get` of the channel-segment variant (`src/channel/bounded.rs:79`,
the `Log` used by the unbounded `Channel`): `None` when
`index > self.capacity() - 1`, otherwise the raw content of the cell
(which is `None` while the slot has not been written). `new`, `len` and
`push` of that variant are textually identical to `src/log/bounded.rs`
(its `ChannelError::LogCapacityExceeded` mirrors `LogError`). -/
def getCap (l : Log T) (index : Nat) : Option T :=
  if index > l.capacity - 1 then none
  else l.data.getD index none

/-- State after a sequence of `push` calls (results discarded). -/
def pushAll (l : Log T) (vs : List T) : Log T :=
  vs.foldl (fun l v => (l.push v).fst) l

@[simp]
theorem pushAll_nil (l : Log T) : l.pushAll [] = l := rfl

@[simp]
theorem pushAll_cons (l : Log T) (v : T) (vs : List T) :
    l.pushAll (v :: vs) = (l.push v).fst.pushAll vs := rfl

theorem pushAll_append (l : Log T) (vs ws : List T) :
    l.pushAll (vs ++ ws) = (l.pushAll vs).pushAll ws :=
  List.foldl_append _ _ _ _

@[simp]
theorem capacity_push (l : Log T) (v : T) : (l.push v).fst.capacity = l.capacity := by
  unfold push
  dsimp only
  split <;> rfl

@[simp]
theorem lenCtr_push (l : Log T) (v : T) : (l.push v).fst.lenCtr = uadd l.lenCtr 1 := by
  unfold push
  dsimp only
  split <;> rfl

theorem data_length_push (l : Log T) (v : T) :
    (l.push v).fst.data.length = l.data.length := by
  unfold push
  dsimp only
  split
  · rfl
  · simp

@[simp]
theorem capacity_pushAll (l : Log T) (vs : List T) :
    (l.pushAll vs).capacity = l.capacity := by
  induction vs generalizing l with
  | nil => rfl
  | cons v vs ih => simp [ih]

theorem lenCtr_pushAll (l : Log T) (vs : List T) :
    (l.pushAll vs).lenCtr = (l.lenCtr + vs.length) % USIZE ∨
      ((l.pushAll vs).lenCtr = l.lenCtr ∧ vs = []) := by
  induction vs generalizing l with
  | nil => exact Or.inr ⟨rfl, rfl⟩
  | cons v vs ih =>
    left
    rcases ih (l.push v).fst with h | ⟨h, hnil⟩
    · rw [pushAll_cons, h, lenCtr_push, uadd]
      simp [Nat.mod_add_mod, Nat.add_assoc, Nat.add_comm 1 vs.length]
    · subst hnil
      rw [pushAll_cons, h, lenCtr_push, uadd]
      simp

/-- After `n ≤ USIZE` pushes from a fresh log, the raw counter is `n % USIZE`. -/
theorem lenCtr_pushAll_new (cap : Nat) (vs : List T) :
    ((Log.new T cap).pushAll vs).lenCtr = vs.length % USIZE := by
  rcases lenCtr_pushAll (Log.new T cap) vs with h | ⟨h, hnil⟩
  · simpa [Log.new] using h
  · subst hnil
    simp only [List.length_nil, Nat.zero_mod, h]
    rfl

/-- Full characterization of the state reached by pushing `vs` into a fresh
log, as long as the reservation counter does not wrap around. -/
theorem pushAll_new_eq (cap : Nat) (vs : List T) (h : vs.length < USIZE) :
    (Log.new T cap).pushAll vs =
      { lenCtr := vs.length
        capacity := max cap 1
        data := ((vs.take (max cap 1)).map some)
                  ++ List.replicate (max cap 1 - vs.length) none } := by
  induction vs using List.reverseRecOn with
  | nil => simp [Log.new]
  | append_singleton vs0 v ih =>
    have hlt0 : vs0.length < USIZE := by
      simp only [List.length_append, List.length_singleton] at h
      omega
    have hstate := ih hlt0
    rw [pushAll_append, pushAll_cons, pushAll_nil, hstate]
    unfold push uadd
    simp only [List.length_append, List.length_singleton] at h ⊢
    by_cases hfull : vs0.length ≥ max cap 1
    · -- the reservation token is past the capacity: nothing is written
      simp only [ge_iff_le, hfull, if_pos]
      have ht1 : (vs0 ++ [v]).take (max cap 1) = vs0.take (max cap 1) := by
        rw [List.take_append_of_le_length hfull]
      have ht2 : max cap 1 - vs0.length = 0 := by omega
      have ht3 : max cap 1 - (vs0.length + 1) = 0 := by omega
      simp only [ht1, ht2, ht3, Nat.mod_eq_of_lt (by omega : vs0.length + 1 < USIZE)]
    · -- the token is in range: the cell at that index receives `some v`
      push_neg at hfull
      simp only [ge_iff_le, if_neg (by omega : ¬ max cap 1 ≤ vs0.length)]
      congr 1
      · exact Nat.mod_eq_of_lt (by omega)
      · have hlen0 : ((vs0.take (max cap 1)).map some).length = vs0.length := by
          simp only [List.length_map, List.length_take]
          omega
        rw [List.set_append_right _ _ (le_of_eq hlen0)]
        have ht1 : (vs0 ++ [v]).take (max cap 1) = vs0 ++ [v] := by
          rw [List.take_of_length_le
            (by simp only [List.length_append, List.length_singleton]; omega)]
        have ht2 : vs0.take (max cap 1) = vs0 :=
          List.take_of_length_le (Nat.le_of_lt hfull)
        rw [hlen0, Nat.sub_self, ht1, ht2]
        have hrep : List.replicate (max cap 1 - vs0.length) (none : Option T) =
            none :: List.replicate (max cap 1 - (vs0.length + 1)) none := by
          have heq : max cap 1 - vs0.length =
              (max cap 1 - (vs0.length + 1)) + 1 := by omega
          rw [heq, List.replicate_succ]
        rw [hrep]
        simp

/-- `get` after a sequence of pushes into a fresh log: exactly the pushed
prefix that fits in the capacity is readable. -/
theorem get_pushAll_new (cap : Nat) (vs : List T) (h : vs.length < USIZE) (k : Nat) :
    ((Log.new T cap).pushAll vs).get k =
      if k < min vs.length (max cap 1) then vs[k]? else none := by
  rw [pushAll_new_eq cap vs h]
  unfold get len
  dsimp only
  by_cases hk : k < min vs.length (max cap 1)
  · have hk1 : k < vs.length := lt_of_lt_of_le hk (min_le_left _ _)
    have hk2 : k < max cap 1 := lt_of_lt_of_le hk (min_le_right _ _)
    rw [if_neg (by omega : ¬ min vs.length (max cap 1) ≤ k), if_pos hk]
    have hlen0 : ((vs.take (max cap 1)).map some).length =
        min vs.length (max cap 1) := by
      simp [min_comm]
    rw [List.getD_eq_getElem?_getD, List.getElem?_append_left (by omega),
      List.getElem?_map, List.getElem?_take_of_lt hk2]
    cases hv : vs[k]? with
    | none =>
      exact absurd (List.getElem?_eq_none_iff.mp hv) (by omega)
    | some w => rfl
  · rw [if_pos (by omega : min vs.length (max cap 1) ≤ k), if_neg hk]

theorem len_pushAll_new (cap : Nat) (vs : List T) (h : vs.length < USIZE) :
    ((Log.new T cap).pushAll vs).len = min vs.length (max cap 1) := by
  rw [pushAll_new_eq cap vs h]
  rfl

@[simp]
theorem capacity_new (cap : Nat) : (Log.new T cap).capacity = max cap 1 := rfl

@[simp]
theorem data_new (cap : Nat) :
    (Log.new T cap).data = List.replicate (max cap 1) none := rfl

end Log

/-- C3: for every bounded log of capacity `cap ≥ 1` and every sequence of
pushes (of machine-representable length), the push performed when `i` values
were already pushed succeeds with index `i` exactly when `i < cap`, and
otherwise returns `LogCapacityExceeded` carrying back the pushed value. -/
theorem c3_bounded_first_cap_pushes_succeed (T : Type) (cap : Nat) (hcap : 1 ≤ cap)
    (vs : List T) (hlen : vs.length ≤ USIZE) (i : Nat) (v : T) (hv : vs[i]? = some v) :
    (((Log.new T cap).pushAll (vs.take i)).push v).snd =
      if i < cap then Except.ok i
      else Except.error (LogError.LogCapacityExceeded v) := by
  have hi : i < vs.length := by
    by_contra hge
    rw [List.getElem?_eq_none_iff.mpr (by omega)] at hv
    exact Option.noConfusion hv
  have hctr : ((Log.new T cap).pushAll (vs.take i)).lenCtr = i := by
    rw [Log.lenCtr_pushAll_new, List.length_take,
      min_eq_left (Nat.le_of_lt hi), Nat.mod_eq_of_lt (by omega)]
  have hcapa : ((Log.new T cap).pushAll (vs.take i)).capacity = cap := by
    rw [Log.capacity_pushAll, Log.capacity_new]
    omega
  unfold Log.push
  dsimp only
  rw [hctr, hcapa]
  by_cases hlt : i < cap
  · rw [if_neg (by omega : ¬ i ≥ cap), if_pos hlt]
  · rw [if_pos (by omega : i ≥ cap), if_neg hlt]

theorem c3_bounded_first_cap_pushes_succeed_witness :
    (1 ≤ 2 ∧ ([10, 20, 30] : List Nat).length ≤ USIZE ∧
      ([10, 20, 30] : List Nat)[2]? = some 30) ∧
    (((Log.new Nat 2).pushAll ([10, 20, 30].take 2)).push 30).snd =
      if 2 < 2 then Except.ok 2
      else Except.error (LogError.LogCapacityExceeded 30) :=
  ⟨⟨by decide, by decide, by decide⟩,
    c3_bounded_first_cap_pushes_succeed Nat 2 (by decide) [10, 20, 30]
      (by decide) 2 30 (by decide)⟩

/-- C4: for every bounded log of capacity `cap ≥ 1`, after any sequence of
pushes (successful or failed, of machine-representable length), `len()` is
`min (number of pushes) cap`, never exceeds `capacity()`, and `get` returns
`none` at every index at or past `len()`. -/
theorem c4_bounded_len_clamped (T : Type) (cap : Nat) (hcap : 1 ≤ cap)
    (vs : List T) (hlen : vs.length < USIZE) :
    ((Log.new T cap).pushAll vs).len = min vs.length cap ∧
    ((Log.new T cap).pushAll vs).len ≤ ((Log.new T cap).pushAll vs).capacity ∧
    ∀ k, ((Log.new T cap).pushAll vs).len ≤ k →
      ((Log.new T cap).pushAll vs).get k = none := by
  have hl : ((Log.new T cap).pushAll vs).len = min vs.length cap := by
    rw [Log.len_pushAll_new cap vs hlen]
    omega
  refine ⟨hl, ?_, ?_⟩
  · rw [hl, Log.capacity_pushAll, Log.capacity_new]
    omega
  · intro k hk
    unfold Log.get
    rw [if_pos hk]

theorem c4_bounded_len_clamped_witness :
    (1 ≤ 2 ∧ ([5, 6, 7] : List Nat).length < USIZE) ∧
    (((Log.new Nat 2).pushAll [5, 6, 7]).len = min 3 2 ∧
      ((Log.new Nat 2).pushAll [5, 6, 7]).len ≤
        ((Log.new Nat 2).pushAll [5, 6, 7]).capacity ∧
      ∀ k, ((Log.new Nat 2).pushAll [5, 6, 7]).len ≤ k →
        ((Log.new Nat 2).pushAll [5, 6, 7]).get k = none) :=
  ⟨⟨by decide, by decide⟩,
    c4_bounded_len_clamped Nat 2 (by decide) [5, 6, 7] (by decide)⟩

/-- C7: `Log::new cap` always succeeds with `capacity() = max cap 1`; in
particular `new 0` yields a usable log of capacity 1: its first push
succeeds at index 0 and the value is readable. -/
theorem c7_new_clamps_capacity (T : Type) (cap : Nat) (v : T) :
    (Log.new T cap).capacity = max cap 1 ∧
    ((Log.new T 0).push v).snd = Except.ok 0 ∧
    ((Log.new T 0).push v).fst.get 0 = some v ∧
    ((Log.new T 0).push v).fst.capacity = 1 :=
  ⟨rfl, rfl, rfl, rfl⟩

/-- C9: a failed push on a bounded log reached by a sequence of pushes
leaves every observable unchanged: `len()` is the same, and `get k` is the
same for every `k`. -/
theorem c9_failed_push_is_observably_atomic (T : Type) (cap : Nat)
    (vs : List T) (hlen : vs.length + 1 < USIZE) (v : T)
    (herr : ∃ e, (((Log.new T cap).pushAll vs).push v).snd = Except.error e) :
    (((Log.new T cap).pushAll vs).push v).fst.len =
      ((Log.new T cap).pushAll vs).len ∧
    ∀ k, (((Log.new T cap).pushAll vs).push v).fst.get k =
      ((Log.new T cap).pushAll vs).get k := by
  have hvs : vs.length < USIZE := by omega
  rw [Log.pushAll_new_eq cap vs hvs] at herr ⊢
  obtain ⟨e, he⟩ := herr
  unfold Log.push at he ⊢
  dsimp only at he ⊢
  by_cases hfull : vs.length ≥ max cap 1
  · rw [if_pos hfull]
    have hu : uadd vs.length 1 = vs.length + 1 := by
      rw [uadd_one, Nat.mod_eq_of_lt (by omega)]
    constructor
    · unfold Log.len
      dsimp only
      rw [hu]
      omega
    · intro k
      unfold Log.get Log.len
      dsimp only
      rw [hu]
      have hmin : min (vs.length + 1) (max cap 1) =
          min vs.length (max cap 1) := by omega
      rw [hmin]
  · rw [if_neg hfull] at he
    exact Except.noConfusion he

theorem c9_failed_push_is_observably_atomic_witness :
    (([5] : List Nat).length + 1 < USIZE ∧
      ∃ e, (((Log.new Nat 1).pushAll [5]).push 6).snd = Except.error e) ∧
    ((((Log.new Nat 1).pushAll [5]).push 6).fst.len =
        ((Log.new Nat 1).pushAll [5]).len ∧
      ∀ k, (((Log.new Nat 1).pushAll [5]).push 6).fst.get k =
        ((Log.new Nat 1).pushAll [5]).get k) :=
  ⟨⟨by decide, ⟨LogError.LogCapacityExceeded 6, rfl⟩⟩,
    c9_failed_push_is_observably_atomic Nat 1 [5] (by decide) 6
      ⟨LogError.LogCapacityExceeded 6, rfl⟩⟩

/-! ## The append-only list with its lookup cache
(`fremkit-channel/src/types/list.rs`) -/

/-- `CACHE_SIZE` (list.rs:17). -/
def CACHE_SIZE : Nat := 32

/-- The lookup `Cache` (list.rs:21). `store` is the fixed array of
`(key, pointer)` entries; a node pointer is modelled as the index of the
node in the chain, `none` modelling the null pointer; `cur` is the rolling
cursor driven by `fetch_add`. -/
structure Cache where
  store : List (Nat × Option Nat)
  cur : Nat
  deriving Repr, DecidableEq

namespace Cache

/-- `Cache::put` (list.rs:44): overwrite the entry at `cur % CACHE_SIZE`
and advance the cursor. -/
def put (c : Cache) (key : Nat) (ptr : Option Nat) : Cache :=
  { store := c.store.set (c.cur % CACHE_SIZE) (key, ptr)
    cur := uadd c.cur 1 }

/-- `Cache::new` (list.rs:30): zero-initialized entries — i.e. `(0, null)`
pairs — followed by `put 0 ptr`. -/
def new (ptr : Option Nat) : Cache :=
  (Cache.mk (List.replicate CACHE_SIZE (0, none)) 0).put 0 ptr

/-- `Cache::get` (list.rs:54): scan the entries in order and return the
pointer of the first whose key matches; a null pointer or no match is a
miss (`none`). -/
def get (c : Cache) (key : Nat) : Option Nat :=
  (c.store.find? (fun e => e.fst == key)).bind (fun e => e.snd)

end Cache

/-- The thread-safe append-only linked `List` of list.rs:69 (named `RList`
here because `List` is taken by Lean). The heap chain of `Block` nodes is
modelled by `blocks`: the node at chain position `i` is `blocks[i]`.
`lenMtx` is the mutex-protected length counter. -/
structure RList (E : Type) where
  blocks : List E
  cache : Cache
  lenMtx : Nat
  deriving Repr, DecidableEq

namespace RList

/-- `List::new` (list.rs:78): a one-node list; the cache starts holding the
binding `0 ↦ head`. -/
def new (value : E) : RList E :=
  { blocks := [value]
    cache := Cache.new (some 0)
    lenMtx := 1 }

/-- `List::len` (list.rs:96). -/
def len (l : RList E) : Nat :=
  l.lenMtx

/-- `List::append` (list.rs:109): link one node after the tail and bump the
length counter; the cache is not touched. -/
def append (l : RList E) (value : E) : RList E :=
  { blocks := l.blocks ++ [value]
    cache := l.cache
    lenMtx := uadd l.lenMtx 1 }

/-- `List::get` (list.rs:131): consult the cache; on a hit dereference the
cached node pointer (modelled as indexing the chain). On a miss walk the
chain from the head — which reaches the `index`-th node exactly when
`index < blocks.length` — and on success record the binding in the cache.
The returned pair carries the updated list state (the cache is written
through `&self` in the source). -/
def get (l : RList E) (index : Nat) : Option E × RList E :=
  match l.cache.get index with
  | some p => (l.blocks[p]?, l)
  | none =>
    match l.blocks[index]? with
    | some v => (some v, { l with cache := l.cache.put index (some index) })
    | none => (none, l)

/-- `List::tail` (list.rs:155): the value of the tail node. The tail
pointer is never null in the source; the `none` case is unreachable. -/
def tailVal (l : RList E) : Option E :=
  l.blocks.getLast?

end RList

/-- Cache well-formedness (invariant L4): every non-null entry binds a key
to the node at exactly that chain position, and the store has its fixed
size. This is what makes a cache hit agree with a chain walk. -/
def CacheWF (c : Cache) (n : Nat) : Prop :=
  c.store.length = CACHE_SIZE ∧
  ∀ e ∈ c.store, ∀ p, e.snd = some p → e.fst = p ∧ p < n

theorem cacheWF_new (n : Nat) (hn : 0 < n) : CacheWF (Cache.new (some 0)) n := by
  constructor
  · simp [Cache.new, Cache.put, CACHE_SIZE]
  · intro e he p hp
    simp only [Cache.new, Cache.put, CACHE_SIZE] at he
    rcases List.mem_or_eq_of_mem_set he with h | h
    · rcases List.eq_of_mem_replicate h with rfl
      exact Option.noConfusion hp
    · subst h
      cases hp
      exact ⟨rfl, hn⟩

theorem cacheWF_mono {c : Cache} {n m : Nat} (h : CacheWF c n) (hnm : n ≤ m) :
    CacheWF c m := by
  refine ⟨h.1, fun e he p hp => ?_⟩
  obtain ⟨h1, h2⟩ := h.2 e he p hp
  exact ⟨h1, Nat.lt_of_lt_of_le h2 hnm⟩

theorem cacheWF_put {c : Cache} {n key : Nat} (h : CacheWF c n) (hk : key < n) :
    CacheWF (c.put key (some key)) n := by
  constructor
  · simp [Cache.put, h.1]
  · intro e he p hp
    rcases List.mem_or_eq_of_mem_set he with hmem | heq
    · exact h.2 e hmem p hp
    · subst heq
      cases hp
      exact ⟨rfl, hk⟩

/-- On a well-formed cache, a hit returns the pointer equal to the key. -/
theorem cache_get_wf {c : Cache} {n key p : Nat} (h : CacheWF c n)
    (hget : c.get key = some p) : p = key ∧ p < n := by
  unfold Cache.get at hget
  cases hfind : c.store.find? (fun e => e.fst == key) with
  | none => rw [hfind] at hget; exact Option.noConfusion hget
  | some e =>
    rw [hfind] at hget
    have hmem : e ∈ c.store := List.mem_of_find?_eq_some hfind
    have hkey : e.fst = key := by
      have := List.find?_some hfind
      simpa using this
    obtain ⟨h1, h2⟩ := h.2 e hmem p hget
    exact ⟨h1 ▸ hkey, h2⟩

/-- Well-formedness of the whole list: fixed-size cache with only valid
bindings. -/
def ListWF (l : RList E) : Prop :=
  CacheWF l.cache l.blocks.length

theorem listWF_new (v : E) : ListWF (RList.new v) :=
  cacheWF_new 1 (by decide)

theorem listWF_append {l : RList E} (h : ListWF l) (v : E) :
    ListWF (l.append v) := by
  unfold ListWF RList.append at *
  dsimp only
  rw [List.length_append, List.length_singleton]
  exact cacheWF_mono h (Nat.le_succ _)

/-- L4: on a well-formed list, `get` returns exactly the chain entry,
whether or not the cache hits. -/
theorem rlist_get_fst {l : RList E} (h : ListWF l) (index : Nat) :
    (l.get index).fst = l.blocks[index]? := by
  unfold RList.get
  cases hc : l.cache.get index with
  | some p =>
    obtain ⟨hp, _⟩ := cache_get_wf h hc
    subst hp
    rfl
  | none =>
    cases hb : l.blocks[index]? with
    | some v => rfl
    | none => rfl

theorem rlist_get_snd_blocks (l : RList E) (index : Nat) :
    (l.get index).snd.blocks = l.blocks ∧ (l.get index).snd.lenMtx = l.lenMtx := by
  unfold RList.get
  cases hc : l.cache.get index with
  | some p => exact ⟨rfl, rfl⟩
  | none =>
    cases hb : l.blocks[index]? with
    | some v => exact ⟨rfl, rfl⟩
    | none => exact ⟨rfl, rfl⟩

theorem listWF_get {l : RList E} (h : ListWF l) (index : Nat) :
    ListWF (l.get index).snd := by
  unfold ListWF RList.get
  cases hc : l.cache.get index with
  | some p => exact h
  | none =>
    cases hb : l.blocks[index]? with
    | some v =>
      dsimp only
      exact cacheWF_put h (by
        have := List.getElem?_eq_some_iff.mp hb
        exact this.choose)
    | none => exact h

/-! ## The unbounded channel (`src/channel/unbounded.rs`) -/

/-- Panic outcomes of channel operations, modelled explicitly.

* `divByZero`: Rust `/` or `%` with divisor `0` (in `Channel::get` when
  `log_capacity == 0`);
* `unreachableNewLogFull`: the `panic!("Unreachable: new log cannot be
  already full")` branch of `Channel::push`;
* `nullTail`: dereferencing a null tail pointer (never happens: the list
  always has at least one node). -/
inductive Panic where
  | divByZero
  | unreachableNewLogFull
  | nullTail
  deriving Repr, DecidableEq

/-- `DEFAULT_LOG_CAPACITY` (unbounded.rs:9). -/
def DEFAULT_LOG_CAPACITY : Nat := 1024

/-- The unbounded `Channel` (unbounded.rs:15). The `notifier` and the
growth `mutex` fields have no effect on the sequential functional state;
the notifier is modelled separately as an interleaving state machine. -/
structure Channel (T : Type) where
  log_capacity : Nat
  logs : RList (Log T)
  deriving Repr, DecidableEq

namespace Channel

/-- `Channel::with_log_capacity` (unbounded.rs:29). Note that the clamping
to a minimum of 1 happens only inside `Log::new`: the stored
`log_capacity` keeps the raw argument. -/
def with_log_capacity (T : Type) (log_capacity : Nat) : Channel T :=
  { log_capacity := log_capacity
    logs := RList.new (Log.new T log_capacity) }

/-- `Channel::new` (unbounded.rs:24). -/
def mkNew (T : Type) : Channel T :=
  with_log_capacity T DEFAULT_LOG_CAPACITY

/-- Replace the tail log: the source mutates the tail segment in place
through the `&` returned by `logs.tail()`. -/
def setTail (c : Channel T) (lg : Log T) : Channel T :=
  { c with logs := { c.logs with
      blocks := c.logs.blocks.set (c.logs.blocks.length - 1) lg } }

/-- `Channel::push` (unbounded.rs:41): try the tail; on capacity-exceeded
take the growth mutex and retry (another thread may have grown the list);
on a second failure append a fresh log and push into it, the remaining
failure branch being the `Unreachable` panic. The `notifier.notify()` call
does not change the functional state. -/
def push (c : Channel T) (value : T) : Channel T × Except Panic Nat :=
  match c.logs.tailVal with
  | none => (c, .error .nullTail)
  | some t =>
    match t.push value with
    | (t1, .ok idx) => (c.setTail t1, .ok idx)
    | (t1, .error (.LogCapacityExceeded v)) =>
      let c1 := c.setTail t1
      match c1.logs.tailVal with
      | none => (c1, .error .nullTail)
      | some t2 =>
        match t2.push v with
        | (t3, .ok idx) => (c1.setTail t3, .ok idx)
        | (t3, .error (.LogCapacityExceeded v2)) =>
          let c2 := c1.setTail t3
          let c3 : Channel T :=
            { c2 with logs := c2.logs.append (Log.new T c2.log_capacity) }
          match c3.logs.tailVal with
          | none => (c3, .error .nullTail)
          | some t4 =>
            match t4.push v2 with
            | (t5, .ok idx) => (c3.setTail t5, .ok idx)
            | (_, .error _) => (c3, .error .unreachableNewLogFull)

/-- `Channel::get` (unbounded.rs:87):
`logs.get(index / log_capacity).and_then(|log| log.get(index % log_capacity))`.
Rust `/` and `%` panic on a zero divisor. The pair carries the channel with
the possibly-updated list cache. -/
def get (c : Channel T) (index : Nat) : Except Panic (Option T) × Channel T :=
  if c.log_capacity = 0 then (.error .divByZero, c)
  else
    let r := c.logs.get (index / c.log_capacity)
    (.ok (r.fst.bind (fun lg => lg.getCap (index % c.log_capacity))),
      { c with logs := r.snd })

/-- `Channel::len` (unbounded.rs:94):
`(logs.len() - 1) * log_capacity + logs.tail().len()`. -/
def len (c : Channel T) : Nat :=
  match c.logs.tailVal with
  | some t => uadd (umul (c.logs.len - 1) c.log_capacity) t.len
  | none => 0

/-- `Channel::is_empty` (unbounded.rs:99). -/
def isEmpty (c : Channel T) : Bool :=
  c.len == 0

/-- State after a sequence of `push` calls (results discarded). -/
def pushList (c : Channel T) (vs : List T) : Channel T :=
  vs.foldl (fun c v => (c.push v).fst) c

@[simp]
theorem pushList_nil (c : Channel T) : c.pushList [] = c := rfl

@[simp]
theorem pushList_cons (c : Channel T) (v : T) (vs : List T) :
    c.pushList (v :: vs) = (c.push v).fst.pushList vs := rfl

theorem pushList_append (c : Channel T) (vs ws : List T) :
    c.pushList (vs ++ ws) = (c.pushList vs).pushList ws :=
  List.foldl_append _ _ _ _

end Channel

/-- `ChannelIterator::next` (unbounded.rs:156): read `get(idx)` (which may
update the list cache) and advance `idx`. Collecting the finite iterator
reads indices `0, 1, 2, …` until the first `none` (or a panic, which the
iterator of a positive-capacity channel never hits). `fuel` bounds the
recursion; any fuel past the first `none` yields the same list. -/
def iterCollect (c : Channel T) (idx : Nat) : Nat → List T
  | 0 => []
  | fuel + 1 =>
    match c.get idx with
    | (Except.ok (some v), c1) => v :: iterCollect c1 (uadd idx 1) fuel
    | (Except.ok none, _) => []
    | (Except.error _, _) => []

/-! ## Characterization of the channel state reached by sequential pushes -/

/-- Contents of the cell array of segment `i` after the values `vs` were
pushed in program order: the at-most-`cap` values starting at `i * cap`,
padded with empty cells up to the capacity. -/
def segData (cap : Nat) (vs : List T) (i : Nat) : List (Option T) :=
  ((vs.drop (i * cap)).take cap).map some
    ++ List.replicate (cap - ((vs.drop (i * cap)).take cap).length) none

/-- Segment `i` of a channel of segment capacity `cap` after the pushes
`vs`, where `s` segments exist and the tail holds `r` values. Each
overflowed (non-tail) segment has absorbed exactly two failed reservations
(the push that triggered the growth fails once before and once after
taking the growth mutex), hence its raw counter `cap + 2`. -/
def segBlock (cap : Nat) (vs : List T) (s r i : Nat) : Log T :=
  if i + 1 < s then
    { lenCtr := cap + 2, capacity := cap, data := segData cap vs i }
  else
    { lenCtr := r, capacity := cap, data := segData cap vs i }

/-- The channel state after the sequential pushes `vs`: `s` segments whose
tail holds `r` values. Pushing never touches the list cache, which stays
in its initial state. -/
def chanState (cap : Nat) (vs : List T) (s r : Nat) : Channel T :=
  { log_capacity := cap
    logs := { blocks := (List.range s).map (segBlock cap vs s r)
              cache := Cache.new (some 0)
              lenMtx := s } }

theorem getLast?_range_map (f : Nat → α) (s : Nat) (hs : 1 ≤ s) :
    ((List.range s).map f).getLast? = some (f (s - 1)) := by
  rw [List.getLast?_eq_getElem?]
  simp only [List.length_map, List.length_range, List.getElem?_map]
  rw [List.getElem?_range (by omega)]
  rfl

theorem segData_stable (cap : Nat) (vs : List T) (v : T) (i : Nat)
    (h : i * cap + cap ≤ vs.length) :
    segData cap (vs ++ [v]) i = segData cap vs i := by
  unfold segData
  have hdrop : (vs ++ [v]).drop (i * cap) = vs.drop (i * cap) ++ [v] :=
    List.drop_append_of_le_length (by omega)
  have htake : (vs.drop (i * cap) ++ [v]).take cap = (vs.drop (i * cap)).take cap :=
    List.take_append_of_le_length (by simp; omega)
  rw [hdrop, htake]

/-- Tail-segment slice: when the tail holds `r = vs.length - (s-1) * cap`
values with `r < cap`, appending one pushed value extends the slice. -/
theorem segData_tail_extend (cap : Nat) (vs : List T) (v : T) (s r : Nat)
    (hsr : vs.length = (s - 1) * cap + r) (hr : r < cap) :
    segData cap (vs ++ [v]) (s - 1) =
      (segData cap vs (s - 1)).set r (some v) := by
  unfold segData
  have hdrop0 : (vs.drop ((s - 1) * cap)).length = r := by
    rw [List.length_drop]
    omega
  have hdrop : (vs ++ [v]).drop ((s - 1) * cap) = vs.drop ((s - 1) * cap) ++ [v] :=
    List.drop_append_of_le_length (by omega)
  have htake0 : (vs.drop ((s - 1) * cap)).take cap = vs.drop ((s - 1) * cap) :=
    List.take_of_length_le (by omega)
  have htake : (vs.drop ((s - 1) * cap) ++ [v]).take cap =
      vs.drop ((s - 1) * cap) ++ [v] := by
    refine List.take_of_length_le ?_
    simp only [List.length_append, List.length_singleton]
    omega
  rw [hdrop, htake, htake0]
  have hlen : ((vs.drop ((s - 1) * cap)).map some).length = r := by
    rw [List.length_map, hdrop0]
  rw [List.set_append_right _ _ (le_of_eq hlen), hlen, Nat.sub_self]
  have hrep : List.replicate (cap - r) (none : Option T) =
      none :: List.replicate (cap - (r + 1)) none := by
    have heq : cap - r = (cap - (r + 1)) + 1 := by omega
    rw [heq, List.replicate_succ]
  rw [List.length_append, List.length_singleton, hdrop0, hrep,
    List.set_cons_zero, List.map_append]
  simp

/-- Fresh-tail slice: right after a growth the new tail holds exactly the
value that triggered it. -/
theorem segData_fresh (cap : Nat) (vs : List T) (v : T) (s : Nat)
    (hsr : vs.length = s * cap) (hcap : 1 ≤ cap) :
    segData cap (vs ++ [v]) s = some v :: List.replicate (cap - 1) none := by
  unfold segData
  have hdrop : (vs ++ [v]).drop (s * cap) = [v] := by
    rw [List.drop_append_of_le_length (by omega), List.drop_of_length_le (by omega)]
    rfl
  rw [hdrop, List.take_of_length_le (by simp [hcap])]
  simp

theorem segBlock_last (cap : Nat) (vs : List T) (s r : Nat) (hs : 1 ≤ s) :
    segBlock cap vs s r (s - 1) =
      { lenCtr := r, capacity := cap, data := segData cap vs (s - 1) } := by
  unfold segBlock
  rw [if_neg (by omega)]

theorem segBlock_full (cap : Nat) (vs : List T) (s r i : Nat) (hi : i + 1 < s) :
    segBlock cap vs s r i =
      { lenCtr := cap + 2, capacity := cap, data := segData cap vs i } := by
  unfold segBlock
  rw [if_pos hi]

theorem log_new_pos (T : Type) (cap : Nat) (hcap : 1 ≤ cap) :
    Log.new T cap =
      { lenCtr := 0, capacity := cap, data := List.replicate cap none } := by
  unfold Log.new
  rw [max_eq_left hcap]

theorem log_push_ok (k c : Nat) (d : List (Option T)) (v : T) (hk : k < c) :
    Log.push { lenCtr := k, capacity := c, data := d } v =
      ({ lenCtr := uadd k 1, capacity := c, data := d.set k (some v) },
        Except.ok k) := by
  unfold Log.push
  dsimp only
  rw [if_neg (by omega)]

theorem log_push_err (k c : Nat) (d : List (Option T)) (v : T) (hk : c ≤ k) :
    Log.push { lenCtr := k, capacity := c, data := d } v =
      ({ lenCtr := uadd k 1, capacity := c, data := d },
        Except.error (LogError.LogCapacityExceeded v)) := by
  unfold Log.push
  dsimp only
  rw [if_pos (by omega)]

theorem chanState_tailVal (cap : Nat) (vs : List T) (s r : Nat) (hs : 1 ≤ s) :
    (chanState cap vs s r).logs.tailVal =
      some { lenCtr := r, capacity := cap, data := segData cap vs (s - 1) } := by
  unfold chanState RList.tailVal
  dsimp only
  rw [getLast?_range_map _ s hs, segBlock_last cap vs s r hs]

/-- `setTail` on the characterized state sets the block at index `s - 1`. -/
theorem setTail_chanState (cap : Nat) (vs : List T) (s r : Nat) (t : Log T) :
    (chanState cap vs s r).setTail t =
      { log_capacity := cap
        logs := { blocks := ((List.range s).map (segBlock cap vs s r)).set (s - 1) t
                  cache := Cache.new (some 0)
                  lenMtx := s } } := by
  unfold Channel.setTail chanState
  dsimp only
  rw [List.length_map, List.length_range]

/-- Updating only the tail counter re-characterizes with the new fill
value (the cell data being unchanged). -/
theorem blocks_set_ctr (cap : Nat) (vs : List T) (s r k : Nat) (hs : 1 ≤ s) :
    ((List.range s).map (segBlock cap vs s r)).set (s - 1)
        { lenCtr := k, capacity := cap, data := segData cap vs (s - 1) } =
      (List.range s).map (segBlock cap vs s k) := by
  refine List.ext_getElem? (fun i => ?_)
  by_cases hi : i < s
  · by_cases hlast : i = s - 1
    · subst hlast
      rw [List.getElem?_set_self (by simp; omega), List.getElem?_map,
        List.getElem?_range (by omega), Option.map_some',
        segBlock_last cap vs s k hs]
    · have hne : s - 1 ≠ i := fun h => hlast h.symm
      rw [List.getElem?_set_ne hne, List.getElem?_map, List.getElem?_map,
        List.getElem?_range (by omega), Option.map_some', Option.map_some',
        segBlock_full cap vs s r i (by omega),
        segBlock_full cap vs s k i (by omega)]
  · rw [List.getElem?_eq_none_iff.mpr (by simp; omega),
      List.getElem?_eq_none_iff.mpr (by simp; omega)]

theorem full_mul_le (cap s i n : Nat) (hn : (s - 1) * cap ≤ n)
    (hi : i + 1 < s) : i * cap + cap ≤ n := by
  have h1 : (i + 1) * cap ≤ (s - 1) * cap := Nat.mul_le_mul_right cap (by omega)
  have h2 : i * cap + cap = (i + 1) * cap := by ring
  omega

/-- Writing the pushed value into the free slot `r` of the tail
re-characterizes with the value appended and the fill `r + 1`. -/
theorem blocks_set_write (cap : Nat) (vs : List T) (v : T) (s r : Nat)
    (hs : 1 ≤ s) (hsr : vs.length = (s - 1) * cap + r) (hrc : r < cap) :
    ((List.range s).map (segBlock cap vs s r)).set (s - 1)
        { lenCtr := r + 1, capacity := cap,
          data := (segData cap vs (s - 1)).set r (some v) } =
      (List.range s).map (segBlock cap (vs ++ [v]) s (r + 1)) := by
  refine List.ext_getElem? (fun i => ?_)
  by_cases hi : i < s
  · by_cases hlast : i = s - 1
    · subst hlast
      rw [List.getElem?_set_self (by simp; omega), List.getElem?_map,
        List.getElem?_range (by omega), Option.map_some',
        segBlock_last cap (vs ++ [v]) s (r + 1) hs,
        segData_tail_extend cap vs v s r hsr hrc]
    · have hne : s - 1 ≠ i := fun h => hlast h.symm
      have hfull : i + 1 < s := by omega
      rw [List.getElem?_set_ne hne, List.getElem?_map, List.getElem?_map,
        List.getElem?_range (by omega), Option.map_some', Option.map_some',
        segBlock_full cap vs s r i hfull,
        segBlock_full cap (vs ++ [v]) s (r + 1) i hfull,
        segData_stable cap vs v i (full_mul_le cap s i vs.length (by omega) hfull)]
  · rw [List.getElem?_eq_none_iff.mpr (by simp; omega),
      List.getElem?_eq_none_iff.mpr (by simp; omega)]

/-- Appending the fresh segment holding `v` re-characterizes with `s + 1`
segments and tail fill `1`. -/
theorem blocks_append_fresh (cap : Nat) (hcap : 1 ≤ cap) (vs : List T) (v : T)
    (s : Nat) (hs : 1 ≤ s) (hsr : vs.length = s * cap) :
    (List.range s).map (segBlock cap vs s (cap + 2)) ++
        [{ lenCtr := 1, capacity := cap,
           data := (List.replicate cap none).set 0 (some v) }] =
      (List.range (s + 1)).map (segBlock cap (vs ++ [v]) (s + 1) 1) := by
  have hsc : vs.length = (s - 1) * cap + cap := by
    have hexp : (s - 1) * cap + cap = s * cap := by
      cases s with
      | zero => omega
      | succ s0 =>
        rw [Nat.succ_sub_one]
        ring
    omega
  refine List.ext_getElem? (fun i => ?_)
  by_cases hi : i < s
  · rw [List.getElem?_append_left (by simp; omega), List.getElem?_map,
      List.getElem?_map, List.getElem?_range (by omega),
      List.getElem?_range (by omega), Option.map_some', Option.map_some']
    by_cases hlast : i = s - 1
    · subst hlast
      rw [segBlock_last cap vs s (cap + 2) hs,
        segBlock_full cap (vs ++ [v]) (s + 1) 1 (s - 1) (by omega),
        segData_stable cap vs v (s - 1) (le_of_eq hsc.symm)]
    · have hfull : i + 1 < s := by omega
      rw [segBlock_full cap vs s (cap + 2) i hfull,
        segBlock_full cap (vs ++ [v]) (s + 1) 1 i (by omega),
        segData_stable cap vs v i (full_mul_le cap s i vs.length (by omega) hfull)]
  · by_cases hi2 : i = s
    · rw [hi2]
      rw [List.getElem?_append_right (by simp), List.getElem?_map]
      simp only [List.length_map, List.length_range]
      rw [Nat.sub_self, List.getElem?_range (by omega : s < s + 1), Option.map_some']
      have hseg : segBlock cap (vs ++ [v]) (s + 1) 1 s =
          { lenCtr := 1, capacity := cap, data := segData cap (vs ++ [v]) s } := by
        unfold segBlock
        rw [if_neg (by omega)]
      rw [List.getElem?_cons_zero, hseg, segData_fresh cap vs v s hsr hcap]
      have hrepset : (List.replicate cap (none : Option T)).set 0 (some v) =
          some v :: List.replicate (cap - 1) none := by
        have hc : cap = (cap - 1) + 1 := by omega
        rw [hc, List.replicate_succ, List.set_cons_zero,
          show (cap - 1) + 1 - 1 = cap - 1 from by omega]
      rw [hrepset]
    · rw [List.getElem?_eq_none_iff.mpr (by simp; omega),
        List.getElem?_eq_none_iff.mpr (by simp; omega)]

theorem setTail_chanState_ctr (cap : Nat) (vs : List T) (s r k : Nat) (hs : 1 ≤ s) :
    (chanState cap vs s r).setTail
        { lenCtr := k, capacity := cap, data := segData cap vs (s - 1) } =
      chanState cap vs s k := by
  rw [setTail_chanState, blocks_set_ctr cap vs s r k hs]
  rfl

theorem setTail_chanState_write (cap : Nat) (vs : List T) (v : T) (s r : Nat)
    (hs : 1 ≤ s) (hsr : vs.length = (s - 1) * cap + r) (hrc : r < cap) :
    (chanState cap vs s r).setTail
        { lenCtr := r + 1, capacity := cap,
          data := (segData cap vs (s - 1)).set r (some v) } =
      chanState cap (vs ++ [v]) s (r + 1) := by
  rw [setTail_chanState, blocks_set_write cap vs v s r hs hsr hrc]
  rfl

/-- One `Channel::push` step on the characterized state: if the tail has
room the value lands there at local index `r`; otherwise the push fails
twice, a segment is appended, and the value lands at local index `0` of
the fresh tail. The returned index is in both cases the *local* index. -/
theorem push_chanState (cap : Nat) (hcap : 1 ≤ cap) (hcap2 : cap + 2 < USIZE)
    (vs : List T) (v : T) (s r : Nat)
    (hsr : vs.length = (s - 1) * cap + r) (hs : 1 ≤ s) (hr : r ≤ cap)
    (hn : vs.length + 1 < USIZE) :
    (chanState cap vs s r).push v =
      if r < cap then (chanState cap (vs ++ [v]) s (r + 1), Except.ok r)
      else (chanState cap (vs ++ [v]) (s + 1) 1, Except.ok 0) := by
  by_cases hrc : r < cap
  · -- room in the tail segment
    rw [if_pos hrc]
    have hu : uadd r 1 = r + 1 := by
      rw [uadd_one, Nat.mod_eq_of_lt (by omega)]
    unfold Channel.push
    rw [chanState_tailVal cap vs s r hs]
    dsimp only
    rw [log_push_ok r cap _ v hrc, hu]
    dsimp only
    rw [setTail_chanState_write cap vs v s r hs hsr hrc]
  · -- tail full: two failed reservations, then growth
    rw [if_neg hrc]
    have hreq : cap = r := by omega
    subst hreq
    have hntimes : vs.length = s * cap := by
      have hexp : (s - 1) * cap + cap = s * cap := by
        cases s with
        | zero => omega
        | succ s0 =>
          rw [Nat.succ_sub_one]
          ring
      omega
    have hsle : s ≤ vs.length := by
      calc s ≤ s * cap := Nat.le_mul_of_pos_right s (by omega)
      _ = vs.length := hntimes.symm
    have hu1 : uadd cap 1 = cap + 1 := by
      rw [uadd_one, Nat.mod_eq_of_lt (by omega)]
    have hu2 : uadd (cap + 1) 1 = cap + 2 := by
      rw [uadd_one, Nat.mod_eq_of_lt (by omega)]
    have hus : uadd s 1 = s + 1 := by
      rw [uadd_one, Nat.mod_eq_of_lt (by omega)]
    unfold Channel.push
    rw [chanState_tailVal cap vs s cap hs]
    dsimp only
    rw [log_push_err cap cap _ v (Nat.le_refl cap), hu1]
    dsimp only
    rw [setTail_chanState_ctr cap vs s cap (cap + 1) hs]
    rw [chanState_tailVal cap vs s (cap + 1) hs]
    dsimp only
    rw [log_push_err (cap + 1) cap _ v (by omega), hu2]
    dsimp only
    rw [setTail_chanState_ctr cap vs s (cap + 1) (cap + 2) hs]
    unfold chanState RList.append RList.tailVal
    dsimp only
    rw [log_new_pos T cap hcap, hus, List.getLast?_concat]
    dsimp only
    rw [log_push_ok 0 cap _ v (by omega)]
    dsimp only
    rw [show uadd 0 1 = 1 from by rw [uadd_one, Nat.mod_eq_of_lt (by omega)]]
    unfold Channel.setTail
    dsimp only
    rw [List.length_append, List.length_map, List.length_range,
      List.length_singleton]
    rw [List.set_append_right _ _
      (by simp only [List.length_map, List.length_range]; omega), List.length_map,
      List.length_range,
      show s + 1 - 1 - s = 0 from by omega]
    rw [show ([Log.mk (T := T) 0 cap (List.replicate cap none)]).set 0
        { lenCtr := 1, capacity := cap,
          data := (List.replicate cap none).set 0 (some v) } =
        [{ lenCtr := 1, capacity := cap,
           data := (List.replicate cap none).set 0 (some v) }] from rfl]
    rw [blocks_append_fresh cap hcap vs v s hs hntimes]

theorem succ_sub_one_mul (s cap : Nat) (hs : 1 ≤ s) :
    (s - 1) * cap + cap = s * cap := by
  cases s with
  | zero => omega
  | succ s0 =>
    simp only [Nat.add_sub_cancel]
    ring

/-- Any sequence of pushes starting from a fresh channel of positive
segment capacity reaches a characterized state: `s` segments, the tail
holding `r` of the pushed values. -/
theorem pushList_chanState (cap : Nat) (hcap : 1 ≤ cap) (hcap2 : cap + 2 < USIZE)
    (vs : List T) (hn : vs.length < USIZE) :
    ∃ s r, 1 ≤ s ∧ r ≤ cap ∧ vs.length = (s - 1) * cap + r ∧
      (vs.length = 0 → s = 1 ∧ r = 0) ∧ (1 ≤ vs.length → 1 ≤ r) ∧
      (Channel.with_log_capacity T cap).pushList vs = chanState cap vs s r := by
  induction vs using List.reverseRecOn with
  | nil =>
    refine ⟨1, 0, le_refl 1, by omega, by simp, fun _ => ⟨rfl, rfl⟩, by simp, ?_⟩
    rw [Channel.pushList_nil]
    unfold Channel.with_log_capacity chanState RList.new
    rw [log_new_pos T cap hcap]
    have hseg : (List.range 1).map (segBlock cap ([] : List T) 1 0) =
        [{ lenCtr := 0, capacity := cap, data := List.replicate cap none }] := by
      rw [show List.range 1 = [0] from rfl, List.map_cons, List.map_nil]
      unfold segBlock segData
      rw [if_neg (by omega)]
      simp
    rw [hseg]
  | append_singleton vs0 v ih =>
    have hlt : vs0.length < USIZE := by
      simp only [List.length_append, List.length_singleton] at hn
      omega
    obtain ⟨s, r, hs, hr, hsr, hz, hpos, heq⟩ := ih hlt
    rw [Channel.pushList_append, Channel.pushList_cons, Channel.pushList_nil, heq]
    rw [push_chanState cap hcap hcap2 vs0 v s r hsr hs hr
      (by simp only [List.length_append, List.length_singleton] at hn; omega)]
    by_cases hrc : r < cap
    · rw [if_pos hrc]
      refine ⟨s, r + 1, hs, by omega, ?_, ?_, ?_, rfl⟩
      · simp only [List.length_append, List.length_singleton]
        omega
      · simp only [List.length_append, List.length_singleton]
        omega
      · intro _
        omega
    · rw [if_neg hrc]
      have hre : r = cap := by omega
      refine ⟨s + 1, 1, by omega, hcap, ?_, ?_, fun _ => le_refl 1, rfl⟩
      · simp only [List.length_append, List.length_singleton, Nat.add_sub_cancel]
        have := succ_sub_one_mul s cap hs
        omega
      · simp only [List.length_append, List.length_singleton]
        omega

/-- The pure observable behind `Channel::get` for a positive capacity: the
cache only accelerates the segment lookup, it never changes the result. -/
def getPure (c : Channel T) (k : Nat) : Option T :=
  (c.logs.blocks[k / c.log_capacity]?).bind
    (fun lg => lg.getCap (k % c.log_capacity))

/-- On a channel with a well-formed list and a nonzero capacity, `get`
returns `getPure` without panicking, and only the advisory cache of the
state may change. -/
theorem get_wf (c : Channel T) (h : ListWF c.logs) (hcap : c.log_capacity ≠ 0)
    (k : Nat) :
    (c.get k).fst = Except.ok (getPure c k) ∧
    (c.get k).snd.logs.blocks = c.logs.blocks ∧
    (c.get k).snd.log_capacity = c.log_capacity ∧
    ListWF (c.get k).snd.logs := by
  unfold Channel.get
  rw [if_neg hcap]
  dsimp only
  refine ⟨?_, ?_, rfl, ?_⟩
  · rw [rlist_get_fst h]
    rfl
  · exact (rlist_get_snd_blocks c.logs (k / c.log_capacity)).1
  · have hwf := listWF_get h (k / c.log_capacity)
    unfold ListWF at hwf ⊢
    rw [(rlist_get_snd_blocks c.logs (k / c.log_capacity)).1] at hwf ⊢
    exact hwf

theorem listWF_chanState (cap : Nat) (vs : List T) (s r : Nat) (hs : 1 ≤ s) :
    ListWF (chanState cap vs s r).logs := by
  unfold ListWF chanState
  dsimp only
  rw [List.length_map, List.length_range]
  exact cacheWF_new s (by omega)

/-- On the characterized state, the pure `get` observable returns exactly
the `k`-th pushed value when `k` is in range, and `none` otherwise. -/
theorem getPure_chanState (cap : Nat) (hcap : 1 ≤ cap) (vs : List T) (s r : Nat)
    (hs : 1 ≤ s) (hr : r ≤ cap) (hsr : vs.length = (s - 1) * cap + r) (k : Nat) :
    getPure (chanState cap vs s r) k =
      if k < vs.length then vs[k]? else none := by
  have hcap0 : 0 < cap := hcap
  have hdm : cap * (k / cap) + k % cap = k := Nat.div_add_mod k cap
  have hmod : k % cap < cap := Nat.mod_lt k hcap0
  unfold getPure chanState
  dsimp only
  by_cases hseg : k / cap < s
  · rw [List.getElem?_map, List.getElem?_range hseg, Option.map_some',
      Option.some_bind]
    have hdata : (segBlock cap vs s r (k / cap)).data = segData cap vs (k / cap) := by
      unfold segBlock
      split <;> rfl
    have hcapa : (segBlock cap vs s r (k / cap)).capacity = cap := by
      unfold segBlock
      split <;> rfl
    unfold Log.getCap
    rw [hdata, hcapa, if_neg (by omega : ¬ k % cap > cap - 1)]
    unfold segData
    have hslice : ((vs.drop (k / cap * cap)).take cap).length =
        min cap (vs.length - k / cap * cap) := by
      simp
    rw [List.getD_eq_getElem?_getD]
    by_cases hk : k < vs.length
    · rw [if_pos hk]
      -- the wanted cell lies in the mapped slice
      have hin : k % cap < ((vs.drop (k / cap * cap)).take cap).length := by
        rw [hslice]
        have h1 : k / cap * cap ≤ k := Nat.div_mul_le_self k cap
        have h2 : k / cap * cap = cap * (k / cap) := Nat.mul_comm _ _
        omega
      rw [List.getElem?_append_left (by simpa using hin), List.getElem?_map,
        List.getElem?_take_of_lt hmod, List.getElem?_drop]
      have hidx : k / cap * cap + k % cap = k := by
        have h2 : k / cap * cap = cap * (k / cap) := Nat.mul_comm _ _
        omega
      rw [hidx]
      cases hv : vs[k]? with
      | none => exact absurd (List.getElem?_eq_none_iff.mp hv) (by omega)
      | some w => rfl
    · rw [if_neg hk]
      -- the cell is either a padding cell or out of the array entirely
      by_cases hin : k % cap < ((vs.drop (k / cap * cap)).take cap).length
      · exfalso
        rw [hslice] at hin
        have h2 : k / cap * cap = cap * (k / cap) := Nat.mul_comm _ _
        omega
      · rw [List.getElem?_append_right (by simpa using Nat.le_of_not_lt hin)]
        rw [List.length_map, List.getElem?_replicate]
        split <;> rfl
  · rw [List.getElem?_eq_none_iff.mpr (by simp; omega), Option.none_bind]
    have hks : s * cap ≤ k := by
      have h1 : s ≤ k / cap := Nat.le_of_not_lt hseg
      have h2 : s * cap ≤ k / cap * cap := Nat.mul_le_mul_right cap h1
      have h3 : k / cap * cap ≤ k := Nat.div_mul_le_self k cap
      omega
    have hns : vs.length ≤ s * cap := by
      have := succ_sub_one_mul s cap hs
      omega
    rw [if_neg (by omega)]

/-- On the characterized state, `Channel::len` returns the number of
pushes. -/
theorem len_chanState (cap : Nat) (vs : List T) (s r : Nat)
    (hs : 1 ≤ s) (hr : r ≤ cap) (hsr : vs.length = (s - 1) * cap + r)
    (hn : vs.length < USIZE) :
    (chanState cap vs s r).len = vs.length := by
  unfold Channel.len
  rw [chanState_tailVal cap vs s r hs]
  dsimp only
  unfold chanState RList.len Log.len
  dsimp only
  have hlt : (s - 1) * cap ≤ vs.length := by omega
  rw [umul, uadd, Nat.mod_eq_of_lt (by omega : (s - 1) * cap < USIZE)]
  have hmin : min r cap = r := by omega
  rw [hmin, Nat.mod_eq_of_lt (by omega)]
  omega

/-- Walking `get(idx), get(idx+1), …` until the first `none` — which is
what collecting `ChannelIterator` does — yields exactly the pushed suffix
from `idx` on, for any channel whose blocks are those of a characterized
state (the advisory cache may differ and is threaded through). -/
theorem iterCollect_drop (cap : Nat) (hcap : 1 ≤ cap) (vs : List T) (s r : Nat)
    (hs : 1 ≤ s) (hr : r ≤ cap) (hsr : vs.length = (s - 1) * cap + r)
    (hn : vs.length < USIZE) :
    ∀ (fuel idx : Nat) (c : Channel T),
      c.log_capacity = cap →
      c.logs.blocks = (chanState cap vs s r).logs.blocks →
      ListWF c.logs →
      vs.length - idx < fuel →
      iterCollect c idx fuel = vs.drop idx := by
  intro fuel
  induction fuel with
  | zero =>
    intro idx c _ _ _ h2
    omega
  | succ fuel ih =>
    intro idx c hc hb hwf h2
    unfold iterCollect
    have hget := get_wf c hwf (by omega) idx
    have hgp : getPure c idx = if idx < vs.length then vs[idx]? else none := by
      have hcs := getPure_chanState cap hcap vs s r hs hr hsr idx
      unfold getPure at hcs ⊢
      rw [hb, hc]
      exact hcs
    have hpair : c.get idx = (Except.ok (getPure c idx), (c.get idx).snd) := by
      rw [← hget.1]
    by_cases hidx : idx < vs.length
    · rw [hpair, hgp, if_pos hidx, List.getElem?_eq_getElem hidx]
      dsimp only
      have hu : uadd idx 1 = idx + 1 := by
        rw [uadd_one, Nat.mod_eq_of_lt (by omega)]
      rw [hu, ih (idx + 1) (c.get idx).snd (hget.2.2.1.trans hc)
        (hget.2.1.trans hb) hget.2.2.2 (by omega)]
      rw [List.drop_eq_getElem_cons hidx]
    · rw [hpair, hgp, if_neg hidx]
      dsimp only
      rw [List.drop_of_length_le (by omega)]

theorem mod_of_decomp (cap s r n : Nat) (hs : 1 ≤ s)
    (hr : r ≤ cap) (hsr : n = (s - 1) * cap + r) :
    n % cap = if r < cap then r else 0 := by
  by_cases hrc : r < cap
  · rw [if_pos hrc, hsr, Nat.add_comm, Nat.add_mul_mod_self_right,
      Nat.mod_eq_of_lt hrc]
  · rw [if_neg hrc]
    have hre : r = cap := by omega
    have hmul := succ_sub_one_mul s cap hs
    have hn : n = s * cap := by omega
    rw [hn, Nat.mul_mod_left]

/-- C1 counterexample: on a fresh channel of segment capacity 1, the
second push (N = 1) returns index 0 — the local index in the new tail
segment — and not the global index 1 that the claim requires. -/
theorem c1_counterexample_second_push_returns_zero :
    ((((Channel.with_log_capacity Nat 1).push 10).fst).push 11).snd = Except.ok 0 ∧
    ¬ ((((Channel.with_log_capacity Nat 1).push 10).fst).push 11).snd =
        Except.ok 1 := by
  refine ⟨rfl, fun h => ?_⟩
  have h0 : ((((Channel.with_log_capacity Nat 1).push 10).fst).push 11).snd =
      Except.ok 0 := rfl
  rw [h0] at h
  simp at h

/-- C1 amended: the index returned by the N-th push (N prior pushes
completed) is the local index within the tail segment at reservation time,
i.e. `N mod C` — not the global index `N`. -/
theorem c1_amended_push_returns_local_index (T : Type) (cap : Nat)
    (hcap : 1 ≤ cap) (hcap2 : cap + 2 < USIZE) (ws : List T)
    (hw : ws.length + 1 < USIZE) (v : T) :
    (((Channel.with_log_capacity T cap).pushList ws).push v).snd =
      Except.ok (ws.length % cap) := by
  obtain ⟨s, r, hs, hr, hsr, _, _, heq⟩ :=
    pushList_chanState cap hcap hcap2 ws (by omega)
  rw [heq, push_chanState cap hcap hcap2 ws v s r hsr hs hr hw,
    mod_of_decomp cap s r ws.length hs hr hsr]
  by_cases hrc : r < cap
  · rw [if_pos hrc, if_pos hrc]
  · rw [if_neg hrc, if_neg hrc]

theorem c1_amended_push_returns_local_index_witness :
    (1 ≤ 2 ∧ 2 + 2 < USIZE ∧ ([10, 20] : List Nat).length + 1 < USIZE) ∧
    (((Channel.with_log_capacity Nat 2).pushList [10, 20]).push 30).snd =
      Except.ok (([10, 20] : List Nat).length % 2) :=
  ⟨⟨by decide, by decide, by decide⟩,
    c1_amended_push_returns_local_index Nat 2 (by decide) (by decide)
      [10, 20] (by decide) 30⟩

/-- C2: after any sequence of `N` pushes on a fresh channel of positive
segment capacity, `len()` is exactly `N`, and `get k` returns (without
panicking) the `k`-th pushed value when `k < N` and `none` when `k ≥ N`. -/
theorem c2_channel_len_and_get (T : Type) (cap : Nat) (hcap : 1 ≤ cap)
    (hcap2 : cap + 2 < USIZE) (vs : List T) (hn : vs.length < USIZE) (k : Nat) :
    ((Channel.with_log_capacity T cap).pushList vs).len = vs.length ∧
    (((Channel.with_log_capacity T cap).pushList vs).get k).fst =
      Except.ok (if k < vs.length then vs[k]? else none) := by
  obtain ⟨s, r, hs, hr, hsr, _, _, heq⟩ := pushList_chanState cap hcap hcap2 vs hn
  rw [heq]
  refine ⟨len_chanState cap vs s r hs hr hsr hn, ?_⟩
  have hg := (get_wf (chanState cap vs s r) (listWF_chanState cap vs s r hs)
    (by omega : (cap : Nat) ≠ 0) k).1
  rw [hg, getPure_chanState cap hcap vs s r hs hr hsr k]

theorem c2_channel_len_and_get_witness :
    (1 ≤ 2 ∧ 2 + 2 < USIZE ∧ ([7, 8, 9] : List Nat).length < USIZE) ∧
    (((Channel.with_log_capacity Nat 2).pushList [7, 8, 9]).len =
        ([7, 8, 9] : List Nat).length ∧
      (((Channel.with_log_capacity Nat 2).pushList [7, 8, 9]).get 1).fst =
        Except.ok (if 1 < ([7, 8, 9] : List Nat).length then
          ([7, 8, 9] : List Nat)[1]? else none)) :=
  ⟨⟨by decide, by decide, by decide⟩,
    c2_channel_len_and_get Nat 2 (by decide) (by decide) [7, 8, 9] (by decide) 1⟩

theorem segs_eq_ceil (cap s r n : Nat) (hcap : 1 ≤ cap) (hs : 1 ≤ s)
    (hr1 : 1 ≤ r) (hr : r ≤ cap) (hsr : n = (s - 1) * cap + r) :
    (n + cap - 1) / cap = s := by
  have hmul := succ_sub_one_mul s cap hs
  have h1 : n + cap - 1 = cap * s + (r - 1) := by
    have h2 : cap * s = s * cap := Nat.mul_comm cap s
    omega
  rw [h1, Nat.mul_add_div (by omega), Nat.div_eq_of_lt (by omega)]
  omega

/-- C5: after `N` pushes on a fresh channel of positive segment capacity,
the append-only list holds exactly `max 1 ⌈N / C⌉` segments (both as the
number of chain nodes and as the mutex-protected length counter). -/
theorem c5_segment_count (T : Type) (cap : Nat) (hcap : 1 ≤ cap)
    (hcap2 : cap + 2 < USIZE) (vs : List T) (hn : vs.length < USIZE) :
    ((Channel.with_log_capacity T cap).pushList vs).logs.blocks.length =
      max 1 ((vs.length + cap - 1) / cap) ∧
    ((Channel.with_log_capacity T cap).pushList vs).logs.len =
      max 1 ((vs.length + cap - 1) / cap) := by
  obtain ⟨s, r, hs, hr, hsr, hz, hpos, heq⟩ :=
    pushList_chanState cap hcap hcap2 vs hn
  have hcount : max 1 ((vs.length + cap - 1) / cap) = s := by
    by_cases hn0 : vs.length = 0
    · obtain ⟨hs1, hr0⟩ := hz hn0
      rw [hn0, hs1, Nat.zero_add, Nat.div_eq_of_lt (by omega)]
      decide
    · rw [segs_eq_ceil cap s r vs.length hcap hs (hpos (by omega)) hr hsr]
      omega
  rw [heq, hcount]
  constructor
  · unfold chanState
    dsimp only
    rw [List.length_map, List.length_range]
  · rfl

theorem c5_segment_count_witness :
    (1 ≤ 2 ∧ 2 + 2 < USIZE ∧ ([1, 2, 3, 4, 5] : List Nat).length < USIZE) ∧
    (((Channel.with_log_capacity Nat 2).pushList [1, 2, 3, 4, 5]).logs.blocks.length =
        max 1 ((([1, 2, 3, 4, 5] : List Nat).length + 2 - 1) / 2) ∧
      ((Channel.with_log_capacity Nat 2).pushList [1, 2, 3, 4, 5]).logs.len =
        max 1 ((([1, 2, 3, 4, 5] : List Nat).length + 2 - 1) / 2)) :=
  ⟨⟨by decide, by decide, by decide⟩,
    c5_segment_count Nat 2 (by decide) (by decide) [1, 2, 3, 4, 5] (by decide)⟩

/-- C6: collecting the finite iterator (walking `get 0, get 1, …` until the
first `none`) over a channel holding the pushed sequence yields exactly
that sequence, for every fuel bound past its length. -/
theorem c6_iterator_yields_pushed_sequence (T : Type) (cap : Nat)
    (hcap : 1 ≤ cap) (hcap2 : cap + 2 < USIZE) (vs : List T)
    (hn : vs.length < USIZE) (fuel : Nat) (hfuel : vs.length < fuel) :
    iterCollect ((Channel.with_log_capacity T cap).pushList vs) 0 fuel = vs := by
  obtain ⟨s, r, hs, hr, hsr, _, _, heq⟩ := pushList_chanState cap hcap hcap2 vs hn
  rw [heq]
  have h := iterCollect_drop cap hcap vs s r hs hr hsr hn fuel 0
    (chanState cap vs s r) rfl rfl (listWF_chanState cap vs s r hs) (by omega)
  simpa using h

theorem c6_iterator_yields_pushed_sequence_witness :
    (1 ≤ 2 ∧ 2 + 2 < USIZE ∧ ([4, 5, 6] : List Nat).length < USIZE ∧
      ([4, 5, 6] : List Nat).length < 10) ∧
    iterCollect ((Channel.with_log_capacity Nat 2).pushList [4, 5, 6]) 0 10 =
      [4, 5, 6] :=
  ⟨⟨by decide, by decide, by decide, by decide⟩,
    c6_iterator_yields_pushed_sequence Nat 2 (by decide) (by decide) [4, 5, 6]
      (by decide) 10 (by decide)⟩

/-- C10: on every channel built with a positive segment capacity and any
sequence of pushes, `get` never panics (no division by zero) and `push`
never reaches the `Unreachable` panic branch — it returns an index. The
precondition is necessary: `with_log_capacity 0` stores the unclamped
capacity `0` (even though its first segment is clamped to capacity 1), so
any `get` divides by zero. -/
theorem c10_panic_freedom_needs_positive_capacity (T : Type) (cap : Nat)
    (hcap : 1 ≤ cap) (hcap2 : cap + 2 < USIZE) (vs : List T)
    (hn : vs.length + 1 < USIZE) (k : Nat) (v : T) :
    (∃ o, (((Channel.with_log_capacity T cap).pushList vs).get k).fst =
      Except.ok o) ∧
    (((Channel.with_log_capacity T cap).pushList vs).push v).snd =
      Except.ok (vs.length % cap) ∧
    (Channel.with_log_capacity T 0).log_capacity = 0 ∧
    ((Channel.with_log_capacity T 0).get k).fst = Except.error Panic.divByZero ∧
    ((Channel.with_log_capacity T 0).logs.tailVal).map Log.capacity = some 1 := by
  refine ⟨?_, c1_amended_push_returns_local_index T cap hcap hcap2 vs hn v,
    rfl, rfl, rfl⟩
  obtain ⟨s, r, hs, hr, hsr, _, _, heq⟩ :=
    pushList_chanState cap hcap hcap2 vs (by omega)
  rw [heq]
  exact ⟨getPure (chanState cap vs s r) k,
    (get_wf (chanState cap vs s r) (listWF_chanState cap vs s r hs)
      (by omega : (cap : Nat) ≠ 0) k).1⟩

theorem c10_panic_freedom_needs_positive_capacity_witness :
    (1 ≤ 2 ∧ 2 + 2 < USIZE ∧ ([3, 4] : List Nat).length + 1 < USIZE) ∧
    ((∃ o, (((Channel.with_log_capacity Nat 2).pushList [3, 4]).get 0).fst =
        Except.ok o) ∧
      (((Channel.with_log_capacity Nat 2).pushList [3, 4]).push 5).snd =
        Except.ok (([3, 4] : List Nat).length % 2) ∧
      (Channel.with_log_capacity Nat 0).log_capacity = 0 ∧
      ((Channel.with_log_capacity Nat 0).get 0).fst =
        Except.error Panic.divByZero ∧
      ((Channel.with_log_capacity Nat 0).logs.tailVal).map Log.capacity =
        some 1) :=
  ⟨⟨by decide, by decide, by decide⟩,
    c10_panic_freedom_needs_positive_capacity Nat 2 (by decide) (by decide)
      [3, 4] (by decide) 0 5⟩

/-! ## The notifier and the lost-wakeup property

Finite interleaving model (sequentially consistent) of
`fremkit-channel/src/types/notifier.rs` together with one producer running
`channel.push(v)` — which publishes the value and then calls `notify()` —
and one consumer running `channel.wait_for(0)` on an initially empty
channel. The channel content is abstracted to the flag `has`
(`get(0).is_some()`), read by `wait_if`'s predicate under the notifier
mutex and written by the producer outside of it. Condition-variable
wakeups come only from `notify_all` (spurious wakeups would only add loop
iterations through the `cYield` edge). -/

/-- Producer program counter: the publishing store of `push`, then
`notify()` = lock; `condvar.notify_all()`; `count.store(0)`; unlock. -/
inductive PPc where
  | pWrite
  | pLock
  | pNotify
  | pReset
  | pUnlock
  | pDone
  deriving Repr, DecidableEq

/-- Consumer program counter for the `wait_for` loop
`while notifier.wait_if(|| get(0).is_none()) { yield }; get(0).unwrap()`:

* `cLock`/`cTest`: `wait_if` acquires the mutex and runs the callback;
* `cCount`/`cPark`: callback true — `count.fetch_add(1)` then
  `condvar.wait` (atomically releases the mutex and parks);
* `cParked`→`cWoken` (by `notify_all`) →`cRelock`→`cYield`: wake up,
  reacquire and drop the mutex (`wait_if` returns `true`), yield, loop;
* `cRead`: callback false — `wait_if` dropped the mutex and returned
  `false`; the loop exits and `get(0).unwrap()` produces the value. -/
inductive CPc where
  | cLock
  | cTest
  | cCount
  | cPark
  | cParked
  | cWoken
  | cRelock
  | cYield
  | cRead
  | cDone
  deriving Repr, DecidableEq

/-- Global state of the two-thread system: the program counters, the
published-value flag, the notifier mutex, the waiter count, and whether
the consumer has returned the value. -/
structure NState where
  pc1 : PPc
  pc2 : CPc
  has : Bool
  mtx : Bool
  cnt : Nat
  ret : Bool
  deriving Repr, DecidableEq

/-- Producer transitions. `notify_all` moves a parked consumer to the
runnable `cWoken` state (it still has to reacquire the mutex). -/
def prodStep (s : NState) : List NState :=
  match s.pc1 with
  | .pWrite => [{ s with pc1 := .pLock, has := true }]
  | .pLock => if s.mtx then [] else [{ s with pc1 := .pNotify, mtx := true }]
  | .pNotify =>
      [{ s with
          pc1 := PPc.pReset
          pc2 := if s.pc2 = CPc.cParked then CPc.cWoken else s.pc2 }]
  | .pReset => [{ s with pc1 := .pUnlock, cnt := 0 }]
  | .pUnlock => [{ s with pc1 := .pDone, mtx := false }]
  | .pDone => []

/-- Consumer transitions (see `CPc`). The predicate is evaluated while
the mutex is held, which is the design that closes the lost-wakeup
window. -/
def consStep (s : NState) : List NState :=
  match s.pc2 with
  | .cLock => if s.mtx then [] else [{ s with pc2 := .cTest, mtx := true }]
  | .cTest =>
      if s.has then [{ s with pc2 := .cRead, mtx := false }]
      else [{ s with pc2 := .cCount }]
  | .cCount => [{ s with pc2 := .cPark, cnt := uadd s.cnt 1 }]
  | .cPark => [{ s with pc2 := .cParked, mtx := false }]
  | .cParked => []
  | .cWoken => if s.mtx then [] else [{ s with pc2 := .cRelock, mtx := true }]
  | .cRelock => [{ s with pc2 := .cYield, mtx := false }]
  | .cYield => [{ s with pc2 := .cLock }]
  | .cRead => [{ s with pc2 := .cDone, ret := s.has }]
  | .cDone => []

/-- All enabled transitions (nondeterministic interleaving). -/
def stepsOf (s : NState) : List NState :=
  prodStep s ++ consStep s

/-- Initial state: empty channel, free mutex, producer about to push and
consumer about to call `wait_for(0)`. -/
def initN : NState :=
  { pc1 := .pWrite, pc2 := .cLock, has := false, mtx := false, cnt := 0,
    ret := false }

/-- Accumulate the states of `ts` not yet present in `acc`. -/
def addNew (acc ts : List NState) : List NState :=
  ts.foldl (fun acc t => if t ∈ acc then acc else acc ++ [t]) acc

/-- Iterated breadth-first closure. -/
def reachAux : Nat → List NState → List NState
  | 0, acc => acc
  | n + 1, acc => reachAux n (addNew acc (acc.flatMap stepsOf))

/-- The reachable state space (32 rounds are enough; closure is checked
below). -/
def reachN : List NState :=
  reachAux 32 [initN]

def prodRank : PPc → Nat
  | .pWrite => 5
  | .pLock => 4
  | .pNotify => 3
  | .pReset => 2
  | .pUnlock => 1
  | .pDone => 0

def consRank : CPc → Bool → Nat
  | .cLock, false => 12
  | .cTest, false => 11
  | .cCount, _ => 10
  | .cPark, _ => 9
  | .cParked, _ => 8
  | .cWoken, _ => 7
  | .cRelock, _ => 6
  | .cYield, _ => 5
  | .cLock, true => 4
  | .cTest, true => 3
  | .cRead, _ => 1
  | .cDone, _ => 0

/-- Variant: strictly decreases along every transition of the reachable
space, so every execution terminates. -/
def rank (s : NState) : Nat :=
  100 * prodRank s.pc1 + consRank s.pc2 s.has

set_option maxRecDepth 100000

set_option maxHeartbeats 1000000

theorem reachN_init : initN ∈ reachN := by decide

theorem reachN_closed : ∀ s ∈ reachN, ∀ t ∈ stepsOf s, t ∈ reachN := by decide

/-- Safety core of the claim: in no reachable state is the consumer parked
while the producer has already completed `notify()` — a parked consumer
always still has its wakeup ahead. -/
theorem reachN_no_lost_wakeup :
    ∀ s ∈ reachN, ¬ (s.pc1 = PPc.pDone ∧ s.pc2 = CPc.cParked) := by decide

theorem reachN_rank_decreases :
    ∀ s ∈ reachN, ∀ t ∈ stepsOf s, rank t < rank s := by decide

/-- The only states without any enabled transition are the good final
states: producer done, consumer done, and the consumer has returned the
pushed value. -/
theorem reachN_stuck_is_final :
    ∀ s ∈ reachN, stepsOf s = [] →
      s.pc1 = PPc.pDone ∧ s.pc2 = CPc.cDone ∧ s.ret = true := by decide

/-- Any execution (maximal interleaving, stuttering once stuck) stays in
the reachable set. -/
theorem run_in_reach (f : Nat → NState) (h0 : f 0 = initN)
    (hstep : ∀ n, f (n + 1) ∈ stepsOf (f n) ∨
      (stepsOf (f n) = [] ∧ f (n + 1) = f n)) :
    ∀ n, f n ∈ reachN := by
  intro n
  induction n with
  | zero =>
    rw [h0]
    exact reachN_init
  | succ n ih =>
    rcases hstep n with h | ⟨_, he⟩
    · exact reachN_closed _ ih _ h
    · rw [he]
      exact ih

theorem run_stuck_stays (f : Nat → NState)
    (hstep : ∀ n, f (n + 1) ∈ stepsOf (f n) ∨
      (stepsOf (f n) = [] ∧ f (n + 1) = f n))
    (m : Nat) (hm : stepsOf (f m) = []) : ∀ p, f (m + p) = f m := by
  intro p
  induction p with
  | zero => rfl
  | succ p ih =>
    rcases hstep (m + p) with h | ⟨_, he⟩
    · rw [ih, hm] at h
      exact absurd h (List.not_mem_nil _)
    · exact he.trans ih

/-- Termination: the rank strictly decreases along every transition, so
every execution gets stuck (at a final state) within `rank initN` steps. -/
theorem run_terminates (f : Nat → NState) (h0 : f 0 = initN)
    (hstep : ∀ n, f (n + 1) ∈ stepsOf (f n) ∨
      (stepsOf (f n) = [] ∧ f (n + 1) = f n)) :
    ∃ m, m ≤ rank initN ∧ stepsOf (f m) = [] := by
  by_contra hc
  push_neg at hc
  have hdec : ∀ n, n ≤ rank initN + 1 → rank (f n) + n ≤ rank initN := by
    intro n
    induction n with
    | zero =>
      intro _
      rw [h0]
      omega
    | succ n ih =>
      intro hn
      have h1 := ih (by omega)
      rcases hstep n with h | ⟨hs, _⟩
      · have h2 := reachN_rank_decreases _ (run_in_reach f h0 hstep n) _ h
        omega
      · exact absurd hs (hc n (by omega))
  have := hdec (rank initN + 1) (le_refl _)
  omega

/-- C8: no lost wakeup. For every interleaving of a producer that pushes
the value and then calls `notify()` with a consumer running `wait_for(0)`
on an initially empty channel: the consumer is never left parked after
the producer has finished (safety), and the execution always reaches —
within `rank initN` steps — the final state in which the consumer has
returned the pushed value (liveness; the consumer either saw the value
under the mutex and skipped the wait, or parked before the notify and was
woken by it). -/
theorem c8_no_lost_wakeup (f : Nat → NState) (h0 : f 0 = initN)
    (hstep : ∀ n, f (n + 1) ∈ stepsOf (f n) ∨
      (stepsOf (f n) = [] ∧ f (n + 1) = f n)) :
    (∀ n, ¬ ((f n).pc1 = PPc.pDone ∧ (f n).pc2 = CPc.cParked)) ∧
    ∃ m, m ≤ rank initN ∧ (f m).pc1 = PPc.pDone ∧ (f m).pc2 = CPc.cDone ∧
      (f m).ret = true ∧ ∀ p, f (m + p) = f m := by
  refine ⟨fun n => reachN_no_lost_wakeup _ (run_in_reach f h0 hstep n), ?_⟩
  obtain ⟨m, hm, hs⟩ := run_terminates f h0 hstep
  obtain ⟨h1, h2, h3⟩ := reachN_stuck_is_final _ (run_in_reach f h0 hstep m) hs
  exact ⟨m, hm, h1, h2, h3, run_stuck_stays f hstep m hs⟩

/-- A concrete maximal execution: always take the first enabled
transition. -/
def demoRun : Nat → NState
  | 0 => initN
  | n + 1 =>
    match stepsOf (demoRun n) with
    | [] => demoRun n
    | t :: _ => t

theorem demoRun_step (n : Nat) :
    demoRun (n + 1) ∈ stepsOf (demoRun n) ∨
      (stepsOf (demoRun n) = [] ∧ demoRun (n + 1) = demoRun n) := by
  cases h : stepsOf (demoRun n) with
  | nil =>
    right
    refine ⟨rfl, ?_⟩
    show (match stepsOf (demoRun n) with
      | [] => demoRun n
      | t :: _ => t) = demoRun n
    rw [h]
  | cons t ts =>
    left
    have he : demoRun (n + 1) = t := by
      show (match stepsOf (demoRun n) with
        | [] => demoRun n
        | t :: _ => t) = t
      rw [h]
    rw [he]
    exact List.mem_cons_self t ts

theorem c8_no_lost_wakeup_witness :
    (demoRun 0 = initN ∧
      ∀ n, demoRun (n + 1) ∈ stepsOf (demoRun n) ∨
        (stepsOf (demoRun n) = [] ∧ demoRun (n + 1) = demoRun n)) ∧
    ((∀ n, ¬ ((demoRun n).pc1 = PPc.pDone ∧ (demoRun n).pc2 = CPc.cParked)) ∧
      ∃ m, m ≤ rank initN ∧ (demoRun m).pc1 = PPc.pDone ∧
        (demoRun m).pc2 = CPc.cDone ∧ (demoRun m).ret = true ∧
        ∀ p, demoRun (m + p) = demoRun m) :=
  ⟨⟨rfl, demoRun_step⟩, c8_no_lost_wakeup demoRun rfl demoRun_step⟩

end Fremkit
